import Mathlib

/-!
Verification development for the spatial-accessibility engine of the
`access` package: the cost-bounded weighted-catchment aggregation
primitive, the floating-catchment-area (FCA) ratio algorithms built on
it, the step/gaussian weight constructors, and the RAAM iterative
equilibrium solver.

The embedding works over exact rationals.  Pandas data frames are
modelled as association lists keyed by location ids (`ℕ`); a groupby-sum
is an association list over the sorted distinct keys.  IEEE division by
zero (`0/0 = NaN`, `x/0 = ±inf`) is modelled explicitly by `FDiv` where
a result series can contain such values; elsewhere rational arithmetic
models float arithmetic exactly (the inputs reachable by the theorems
below keep denominators nonzero wherever the source divides).
-/

/-- Lookup in an association list: value of the first pair whose key
matches, mirroring an index lookup / left-join probe on a data frame. -/
def lookupL {α : Type} : List (ℕ × α) → ℕ → Option α
  | [], _ => none
  | p :: ps, k => if p.1 = k then some p.2 else lookupL ps k

/-- Insert a key into a sorted duplicate-free list of keys. -/
def insertKey (k : ℕ) : List ℕ → List ℕ
  | [] => [k]
  | a :: t => if k < a then k :: a :: t else if k = a then a :: t else a :: insertKey k t

/-- Sorted distinct keys of an association list (the group keys of a
pandas `groupby`, which sorts keys ascending). -/
def keyList (l : List (ℕ × ℚ)) : List ℕ :=
  l.foldr (fun p acc => insertKey p.1 acc) []

/-- Total value carried by key `k` in `l`. -/
def sumForKey (l : List (ℕ × ℚ)) (k : ℕ) : ℚ :=
  ((l.filter (fun p => p.1 = k)).map Prod.snd).sum

/-- Model of `DataFrame.groupby(key)[value].sum()`: one row per distinct
key (ascending), carrying the sum of the values grouped under it. -/
def groupSum (l : List (ℕ × ℚ)) : List (ℕ × ℚ) :=
  (keyList l).map (fun k => (k, sumForKey l k))

/-- A row of a cost data frame: `(origin, dest, cost)` plus the optional
three-stage preference-weight columns `W3`, `W3sum` and `G`.  The last
three model data-frame columns that exist only after `three_stage_fca`
adds them; they are `0` when the column is absent, and the source reads
them (`temp.W3`, `temp.G`) only on frames where `three_stage_fca` has
populated them. -/
structure CostRow where
  origin : ℕ
  dest : ℕ
  cost : ℚ
  W3 : ℚ := 0
  W3sum : ℚ := 0
  G : ℚ := 0
deriving DecidableEq

/-- Model of `pd.merge(cost_df, loc_df, left_on=cost_source,
right_on=loc_index)`: each cost row is paired with the location value of
every location row whose key equals the row's `cost_source` endpoint. -/
def mergeLoc (loc_df : List (ℕ × ℚ)) (cost_df : List CostRow)
    (cost_source : CostRow → ℕ) : List (CostRow × ℚ) :=
  cost_df.flatMap fun r =>
    (loc_df.filter (fun lv => lv.1 = cost_source r)).map fun lv => (r, lv.2)

/-- The max-cost cutoff stage: `temp = temp[temp[cost_cost] < max_cost]`
when a cutoff is given, the identity when it is `None`. -/
def wcCut (max_cost : Option ℚ) (temp : List (CostRow × ℚ)) : List (CostRow × ℚ) :=
  match max_cost with
  | some m => temp.filter (fun rv => rv.1.cost < m)
  | none => temp

/-- The weighting stage: multiply the location value by
`weight_fn(cost)` — or by `W3 * G` when `three_stage_weight` is set —
when a weight function is given, the identity otherwise. -/
def wcApplyWeight (weight_fn : Option (ℚ → ℚ)) (three_stage_weight : Bool)
    (temp : List (CostRow × ℚ)) : List (CostRow × ℚ) :=
  match weight_fn with
  | some w =>
    if three_stage_weight then temp.map (fun rv => (rv.1, rv.2 * rv.1.W3 * rv.1.G))
    else temp.map (fun rv => (rv.1, rv.2 * w rv.1.cost))
  | none => temp

/-- The aggregation stage: `temp.groupby([cost_dest])[loc_value].sum()`. -/
def wcGroup (cost_dest : CostRow → ℕ) (temp : List (CostRow × ℚ)) : List (ℕ × ℚ) :=
  groupSum (temp.map (fun rv => (cost_dest rv.1, rv.2)))

/-- Embedding of `access/fca.py::weighted_catchment` along the path where
`loc_value` names a real column (the `Except` wrapper below handles
`loc_value=None`): merge the location frame onto the `cost_source`
endpoint, apply the cutoff, then the weighting, then group by the
`cost_dest` endpoint. -/
def weighted_catchment_core (loc_df : List (ℕ × ℚ)) (cost_df : List CostRow)
    (max_cost : Option ℚ) (cost_source cost_dest : CostRow → ℕ)
    (weight_fn : Option (ℚ → ℚ)) (three_stage_weight : Bool) : List (ℕ × ℚ) :=
  wcGroup cost_dest
    (wcApplyWeight weight_fn three_stage_weight
      (wcCut max_cost (mergeLoc loc_df cost_df cost_source)))

/-- Embedding of `access/fca.py::weighted_catchment` including the
`loc_value` parameter.  When `loc_value` is `None` (`locValue = false`)
the source selects the column `None` (`temp[loc_value] *= ...` under a
weight function, and in every case `temp.groupby([cost_dest])[loc_value]`),
which raises `KeyError`; with a named column it returns the grouped sum. -/
def weighted_catchment (loc_df : List (ℕ × ℚ)) (cost_df : List CostRow)
    (max_cost : Option ℚ) (cost_source cost_dest : CostRow → ℕ)
    (locValue : Bool) (weight_fn : Option (ℚ → ℚ)) (three_stage_weight : Bool) :
    Except String (List (ℕ × ℚ)) :=
  if locValue then
    .ok (weighted_catchment_core loc_df cost_df max_cost cost_source cost_dest
      weight_fn three_stage_weight)
  else
    .error "KeyError: None"

/-- Embedding of `access/fca/fca1.py::weighted_catchment`: same merge,
but the weight function is applied *before* the cost cutoff, `max_cost`
is mandatory, and a missing `loc_value` column yields a row *count* per
group instead of an error. -/
def weighted_catchment_fca1 (loc_df : List (ℕ × ℚ)) (cost_df : List CostRow)
    (max_cost : ℚ) (cost_source cost_dest : CostRow → ℕ)
    (locValue : Bool) (weight_fn : Option (ℚ → ℚ)) (three_stage_weight : Bool) :
    List (ℕ × ℚ) :=
  let temp : List (CostRow × ℚ) :=
    wcApplyWeight weight_fn three_stage_weight (mergeLoc loc_df cost_df cost_source)
  let temp : List (CostRow × ℚ) := temp.filter (fun rv => rv.1.cost < max_cost)
  if locValue then wcGroup cost_dest temp
  else groupSum (temp.map (fun rv => (cost_dest rv.1, (1 : ℚ))))

/-- Result of an IEEE floating-point division as it appears in a pandas
series: finite, `NaN` (0/0), or a signed infinity (x/0, x ≠ 0). -/
inductive FDiv where
  | nanV : FDiv
  | infV : FDiv
  | ninfV : FDiv
  | finV : ℚ → FDiv
deriving DecidableEq

/-- IEEE division of finite values: `0/0 = NaN`, `x/0 = ±inf` by the
sign of `x`, exact rational quotient otherwise. -/
def fdiv (a b : ℚ) : FDiv :=
  if b = 0 then
    if a = 0 then .nanV else if 0 < a then .infV else .ninfV
  else .finV (a / b)

/-- Finite part of an `FDiv`, for stating aggregates of series whose
entries are all finite. -/
def fvalQ : FDiv → ℚ
  | .finV q => q
  | _ => 0

/-- Embedding of `access/fca.py::fca_ratio`: aggregate demand over the
neighbor cost table and supply over the supply cost table (both calls
merge the location frame on the `dest` column and group by `origin`,
mirroring the swapped `cost_source=demand_cost_dest` /
`cost_dest=demand_cost_origin` arguments in the source), right-join the
supply series onto the demand series filling absent supply with 0, and
divide.  Both inner calls pass a named `loc_value` column, so the
`KeyError` path of `weighted_catchment` cannot trigger and the result is
a plain series.  The `normalize` parameter is accepted and, as in the
source, never read. -/
def fca_ratio_series (demand_df supply_df : List (ℕ × ℚ))
    (demand_cost_df supply_cost_df : List CostRow) (max_cost : Option ℚ)
    (weight_fn : Option (ℚ → ℚ)) (normalize : Bool) : List (ℕ × FDiv) :=
  let total_demand := weighted_catchment_core demand_df demand_cost_df max_cost
    (fun r => r.dest) (fun r => r.origin) weight_fn false
  let total_supply := weighted_catchment_core supply_df supply_cost_df max_cost
    (fun r => r.dest) (fun r => r.origin) weight_fn false
  total_demand.map fun kd => (kd.1, fdiv ((lookupL total_supply kd.1).getD 0) kd.2)

/-- Demand-weighted mean of a series, as computed by the `normalize`
branch of `access/fca/fca2.py::two_stage_fca` and by
`helpers.normalized_access`: `(series * demand).sum() / demand.sum()`,
where the product aligns on the series index (a key without a demand
entry contributes nothing, as NaN is skipped by the pandas sum). -/
def demand_weighted_mean (series : List (ℕ × ℚ)) (demand_df : List (ℕ × ℚ)) : ℚ :=
  (series.map fun kv => kv.2 * (lookupL demand_df kv.1).getD 0).sum
    / (demand_df.map Prod.snd).sum

/-- Column `W3` of `three_stage_fca`:
`cost_df["W3"] = cost_df[cost_name].apply(weight_fn)`, an in-place
mutation of the caller's cost frame. -/
def add_W3 (cost_df : List CostRow) (weight_fn : ℚ → ℚ) : List CostRow :=
  cost_df.map fun r => { r with W3 := weight_fn r.cost }

/-- `W3sum_frame` of `three_stage_fca`: the `W3` column summed per
origin over the whole cost frame (no cost cutoff is applied here). -/
def w3sum_frame (cost_df : List CostRow) (weight_fn : ℚ → ℚ) : List (ℕ × ℚ) :=
  groupSum ((add_W3 cost_df weight_fn).map fun r => (r.origin, r.W3))

/-- The preference-weight merge of `three_stage_fca`:
`cost_df = pd.merge(cost_df, W3sum_frame); cost_df["G"] = W3 / W3sum`.
Every origin of the frame occurs in `W3sum_frame`, so the inner merge
keeps every row.  Rational division models the float division; `G` of an
origin whose `W3sum` is zero (float NaN) is outside the scope of the
theorems below, which assume a nonzero total raw weight. -/
def add_G (cost_df : List CostRow) (weight_fn : ℚ → ℚ) : List CostRow :=
  (add_W3 cost_df weight_fn).map fun r =>
    let s := (lookupL (w3sum_frame cost_df weight_fn) r.origin).getD 0
    { r with W3sum := s, G := r.W3 / s }

/-- Embedding of `access/fca.py::three_stage_fca`, returning the result
series together with the state of the *caller's* cost frame after the
call.  The source adds `W3` to the caller's frame in place, then rebinds
the local name to a merged copy carrying `W3sum` and `G`; the final
`drop(columns=["G", "W3", "W3sum"], inplace=True)` acts on that local
copy, so the caller's frame keeps the added `W3` column.  `Rl` uses
rational division (the zero-denominator NaN cases play no role in the
theorems below). -/
def three_stage_fca (demand_df supply_df : List (ℕ × ℚ)) (cost_df : List CostRow)
    (max_cost : Option ℚ) (weight_fn : ℚ → ℚ) :
    List (ℕ × ℚ) × List CostRow :=
  let costG := add_G cost_df weight_fn
  let total_demand := weighted_catchment_core demand_df costG max_cost
    (fun r => r.origin) (fun r => r.dest) (some weight_fn) true
  let rl : List (ℕ × ℚ) := total_demand.map fun kd =>
    (kd.1, (lookupL supply_df kd.1).getD 0 / kd.2)
  let series := weighted_catchment_core rl costG max_cost
    (fun r => r.dest) (fun r => r.origin) (some weight_fn) true
  (series, add_W3 cost_df weight_fn)

/-- Argument of `weights.step_fn`: either a dictionary (a finite list of
`(cutoff, weight)` pairs — a Python `dict` has distinct keys) or a value
of some other type. -/
inductive StepArg where
  | dict : List (ℚ × ℚ) → StepArg
  | notDict : StepArg

/-- Insert a pair into a list sorted by key. -/
def insertPair (p : ℚ × ℚ) : List (ℚ × ℚ) → List (ℚ × ℚ)
  | [] => [p]
  | q :: t => if p.1 ≤ q.1 then p :: q :: t else q :: insertPair p t

/-- Sort the dictionary items by key, modelling `sorted(step_dict.items())`
for the distinct keys of a dict. -/
def sortPairs : List (ℚ × ℚ) → List (ℚ × ℚ)
  | [] => []
  | p :: t => insertPair p (sortPairs t)

/-- The inner `helper` of `weights.step_fn`: the value of the first
sorted cutoff at or above the input, and `0` beyond the largest. -/
def stepLookup : List (ℚ × ℚ) → ℚ → ℚ
  | [], _ => 0
  | kv :: t, x => if x ≤ kv.1 then kv.2 else stepLookup t x

/-- The function `weights.step_fn` returns on a valid dictionary. -/
def stepEval (entries : List (ℚ × ℚ)) (x : ℚ) : ℚ :=
  stepLookup (sortPairs entries) x

/-- Embedding of `weights.step_fn`: a non-dict argument raises
`TypeError` and any negative weight raises `ValueError`, both at
construction time; otherwise the returned closure is `stepEval`. -/
def step_fn : StepArg → Except String (ℚ → ℚ)
  | .notDict => .error "step_dict must be of type dict."
  | .dict entries =>
    if entries.any (fun kv => kv.2 < 0) then .error "All weights must be positive."
    else .ok (stepEval entries)

/-- Embedding of `weights.gaussian`: `sigma = 0` raises `ValueError` at
construction time; otherwise the closure `x ↦ exp(-x²/(2σ²))` is
returned, with `np.exp` abstracted as a parameter since the embedding
does not evaluate transcendental floats. -/
def gaussian (exp_fn : ℚ → ℚ) (sigma : ℚ) : Except String (ℚ → ℚ) :=
  if sigma = 0 then .error "Sigma must be non-zero."
  else .ok fun x => exp_fn (-(x * x) / (2 * sigma ^ 2))

/-- `numpy.argmin` over a nonempty row: the first index attaining the
minimum. -/
def argminFin {m : ℕ} (hm : 0 < m) (f : Fin m → ℚ) : Fin m :=
  (List.finRange m).foldl (fun best j => if f j < f best then j else best) ⟨0, hm⟩

/-- `numpy.ma` masked `argmax` over a row: the first unmasked index
attaining the maximum over unmasked entries; index 0 when everything is
masked (the fill behaviour of a fully masked argmax). -/
def argmaxMasked {m : ℕ} (hm : 0 < m) (f : Fin m → ℚ) (mask : Fin m → Bool) : Fin m :=
  match (List.finRange m).filter (fun j => ¬ mask j) with
  | [] => ⟨0, hm⟩
  | c :: cs => cs.foldl (fun best j => if f best < f j then j else best) c

/-- `astype(int)` on a float: truncation toward zero. -/
def truncQ (q : ℚ) : ℤ := if 0 ≤ q then ⌊q⌋ else ⌈q⌉

/-- `numpy.round`: round half to even. -/
def roundHE (q : ℚ) : ℤ :=
  if q - ⌊q⌋ < 1 / 2 then ⌊q⌋
  else if 1 / 2 < q - ⌊q⌋ then ⌊q⌋ + 1
  else if 2 ∣ ⌊q⌋ then ⌊q⌋ else ⌊q⌋ + 1

/-- Inputs of `access/raam.py::iterate_raam` over `n` origins and `m`
destinations.  `travel` is the dense (unmasked) cost matrix already
divided by τ.  `stepSched c` models the float value that
`initial_step * 0.5 ** (c / half_life)` clamped below by `min_step`
takes at cycle `c` (a transcendental float the rational embedding
carries as data); `isFloatStep` selects the `type(initial_step) is
float` branch, where the per-cycle budget is `stepSched c * demand i`
rather than the absolute cap `stepSched c`. -/
structure RaamInput (n m : ℕ) where
  demand : Fin n → ℚ
  supply : Fin m → ℚ
  travel : Fin n → Fin m → ℚ
  isFloatStep : Bool := true
  stepSched : ℕ → ℚ
  limitInitial : ℕ := 20

/-- Column sums of the assignment matrix: `demand_at_supply`. -/
def colSum {n m : ℕ} (A : Fin n → Fin m → ℚ) (j : Fin m) : ℚ := ∑ i, A i j

/-- Row sum of the assignment matrix for one origin. -/
def rowSum {n m : ℕ} (A : Fin n → Fin m → ℚ) (i : Fin n) : ℚ := ∑ j, A i j

/-- Initial assignment of `iterate_raam`: all of each origin's demand on
its minimum-travel-cost destination. -/
def raam_init {n m : ℕ} (hm : 0 < m) (p : RaamInput n m) : Fin n → Fin m → ℚ :=
  fun i j => if j = argminFin hm (p.travel i) then p.demand i else 0

/-- `total_cost = congestion_cost + travel` at the current assignment. -/
def raam_total_cost {n m : ℕ} (p : RaamInput n m) (A : Fin n → Fin m → ℚ)
    (i : Fin n) (j : Fin m) : ℚ :=
  colSum A j / p.supply j + p.travel i j

/-- `min_locations`: per-origin argmin of the total cost. -/
def raam_minloc {n m : ℕ} (hm : 0 < m) (p : RaamInput n m)
    (A : Fin n → Fin m → ℚ) (i : Fin n) : Fin m :=
  argminFin hm (raam_total_cost p A i)

/-- `max_locations`: per-origin argmax of the total cost masked to
destinations currently holding demand from that origin. -/
def raam_maxloc {n m : ℕ} (hm : 0 < m) (p : RaamInput n m)
    (A : Fin n → Fin m → ℚ) (i : Fin n) : Fin m :=
  argmaxMasked hm (raam_total_cost p A i) (fun j => A i j == 0)

/-- The candidate transfer before the step-size clamp: the closed-form
balance `drlmin_new - drlmin`, clamped above by the demand currently at
`max_j` and zeroed when `min_j == max_j`. -/
def raam_delta_clamped {n m : ℕ} (hm : 0 < m) (p : RaamInput n m)
    (A : Fin n → Fin m → ℚ) (i : Fin n) : ℚ :=
  let minj := raam_minloc hm p A i
  let maxj := raam_maxloc hm p A i
  let slmin := p.supply minj
  let slmax := p.supply maxj
  let trlmin := p.travel i minj
  let trlmax := p.travel i maxj
  let drlmin := A i minj
  let drlmax := A i maxj
  let dr := drlmin + drlmax
  let drotherlmin := colSum A minj - drlmin
  let drotherlmax := colSum A maxj - drlmax
  let drlmin_new := slmin * slmax / (slmin + slmax) *
    ((trlmax - trlmin) + (dr + drotherlmax) / slmax - drotherlmin / slmin)
  let delta := drlmin_new - drlmin
  let delta := min delta drlmax
  if maxj = minj then 0 else delta

/-- The per-cycle step budget: `step_size * demand` in the float branch,
the absolute cap `step_size` in the int branch. -/
def raam_budget {n m : ℕ} (p : RaamInput n m) (cyc : ℕ) (i : Fin n) : ℚ :=
  if p.isFloatStep then p.stepSched cyc * p.demand i else p.stepSched cyc

/-- `delta = np.minimum(delta, budget).astype(int)`: the integer
transfer before the anti-flood safeguard. -/
def raam_delta_int {n m : ℕ} (hm : 0 < m) (p : RaamInput n m) (cyc : ℕ)
    (A : Fin n → Fin m → ℚ) (i : Fin n) : ℤ :=
  truncQ (min (raam_delta_clamped hm p A i) (raam_budget p cyc i))

/-- The anti-flood `scale_factor` of a destination: the naive arriving
quantity over its capacity, floored at 1. -/
def raam_scale {n m : ℕ} (hm : 0 < m) (p : RaamInput n m) (cyc : ℕ)
    (A : Fin n → Fin m → ℚ) (j : Fin m) : ℚ :=
  max ((∑ i, if raam_minloc hm p A i = j then ((raam_delta_int hm p cyc A i : ℤ) : ℚ) else 0)
    / p.supply j) 1

/-- The transfer actually applied at cycle `cyc`: during the first
`limit_initial` cycles the integer transfer is divided by the
destination's anti-flood scale and rounded; afterwards it is applied as
is. -/
def raam_delta {n m : ℕ} (hm : 0 < m) (p : RaamInput n m) (cyc : ℕ)
    (A : Fin n → Fin m → ℚ) (i : Fin n) : ℤ :=
  if cyc < p.limitInitial then
    roundHE (((raam_delta_int hm p cyc A i : ℤ) : ℚ)
      / raam_scale hm p cyc A (raam_minloc hm p A i))
  else raam_delta_int hm p cyc A i

/-- One cycle of `iterate_raam`: add the applied transfer at `min_j` and
subtract it at `max_j` (a no-op when the two coincide, matching the
sequential `+=` / `-=` fancy assignments). -/
def raam_cycle {n m : ℕ} (hm : 0 < m) (p : RaamInput n m) (cyc : ℕ)
    (A : Fin n → Fin m → ℚ) : Fin n → Fin m → ℚ :=
  fun i j => A i j
    + (if j = raam_minloc hm p A i then ((raam_delta hm p cyc A i : ℤ) : ℚ) else 0)
    - (if j = raam_maxloc hm p A i then ((raam_delta hm p cyc A i : ℤ) : ℚ) else 0)

/-- The assignment matrix after `k` cycles of `iterate_raam`. -/
def raam_iterate {n m : ℕ} (hm : 0 < m) (p : RaamInput n m) : ℕ → Fin n → Fin m → ℚ
  | 0 => raam_init hm p
  | k + 1 => raam_cycle hm p k (raam_iterate hm p k)

/-- The value `iterate_raam` returns after `max_cycles` cycles: the
demand-weighted mean of the experienced total cost per origin (rational
division stands for the float division; a zero row sum, excluded
upstream by `raam`, is outside the theorems below). -/
def iterate_raam {n m : ℕ} (hm : 0 < m) (p : RaamInput n m) (max_cycles : ℕ)
    (i : Fin n) : ℚ :=
  let A := raam_iterate hm p max_cycles
  (∑ j, raam_total_cost p (raam_iterate hm p (max_cycles - 1)) i j * A i j) / rowSum A i

/-- A location frame with one location of magnitude 3. -/
def exLoc : List (ℕ × ℚ) := [(1, 3)]

/-- A single cost edge from location 1 to location 2 of cost 1. -/
def exRow12 : CostRow := { origin := 1, dest := 2, cost := 1 }

/-- A single cost edge whose cost equals the cutoff used with it. -/
def exRowAtCut : CostRow := { origin := 1, dest := 2, cost := 5 }

/-- Demand frame for the zero-catchment scenario: the neighbor location
2 carries zero demand. -/
def exDemandZ : List (ℕ × ℚ) := [(2, 0)]

/-- Neighbor cost frame for the zero-catchment scenario. -/
def exDemandCostZ : List CostRow := [{ origin := 1, dest := 2, cost := 1 }]

/-- Supply frame for the zero-catchment scenario: location 3 offers 5. -/
def exSupplyZ : List (ℕ × ℚ) := [(3, 5)]

/-- Supply cost frame for the zero-catchment scenario. -/
def exSupplyCostZ : List CostRow := [{ origin := 1, dest := 3, cost := 1 }]

/-- Demand frame of a one-location self-edge scenario. -/
def exDemandN : List (ℕ × ℚ) := [(1, 1)]

/-- Self-edge cost frame of the one-location scenario. -/
def exCostN : List CostRow := [{ origin := 1, dest := 1, cost := 1 }]

/-- Supply frame of the one-location scenario: twice the demand. -/
def exSupplyN : List (ℕ × ℚ) := [(1, 2)]

/-- A step dictionary with cutoffs 10 and 20. -/
def exStepDict : List (ℚ × ℚ) := [(10, 1), (20, 1 / 2)]

/-- A one-origin, two-destination RAAM input. -/
def exRaam : RaamInput 1 2 :=
  { demand := ![4], supply := ![1, 1], travel := ![![0, 1]],
    isFloatStep := true, stepSched := fun _ => 1 / 5, limitInitial := 20 }

theorem lookupL_map_key {α : Type} (ks : List ℕ) (f : ℕ → α) (k : ℕ)
    (hk : k ∈ ks) : lookupL (ks.map fun a => (a, f a)) k = some (f k) := by
  induction ks with
  | nil => cases hk
  | cons a t ih =>
    by_cases ha : a = k
    · subst ha; simp [lookupL]
    · rcases List.mem_cons.mp hk with h | h
      · exact absurd h.symm ha
      · simpa [lookupL, ha] using ih h

theorem mem_insertKey (a k : ℕ) (t : List ℕ) :
    a ∈ insertKey k t ↔ a = k ∨ a ∈ t := by
  induction t with
  | nil => simp [insertKey]
  | cons b t ih =>
    simp only [insertKey]
    split_ifs with h1 h2
    · simp only [List.mem_cons]
    · subst h2
      simp only [List.mem_cons]
      tauto
    · simp only [List.mem_cons, ih]
      tauto

theorem mem_keyList (l : List (ℕ × ℚ)) (k : ℕ) :
    k ∈ keyList l ↔ ∃ p ∈ l, p.1 = k := by
  induction l with
  | nil => simp [keyList]
  | cons p t ih =>
    simp only [keyList, List.foldr_cons] at ih ⊢
    rw [mem_insertKey]
    constructor
    · rintro (h | h)
      · exact ⟨p, List.mem_cons_self p t, h.symm⟩
      · obtain ⟨q, hq, hqk⟩ := ih.mp h
        exact ⟨q, List.mem_cons_of_mem p hq, hqk⟩
    · rintro ⟨q, hq, hqk⟩
      rcases List.mem_cons.mp hq with h | h
      · left; rw [h] at hqk; exact hqk.symm
      · right; exact ih.mpr ⟨q, h, hqk⟩

theorem lookupL_groupSum (l : List (ℕ × ℚ)) (k : ℕ) (h : ∃ p ∈ l, p.1 = k) :
    lookupL (groupSum l) k = some (sumForKey l k) :=
  lookupL_map_key (keyList l) (sumForKey l) k ((mem_keyList l k).mpr h)

theorem filter_map_comm {α β : Type} (l : List α) (f : α → β) (p : β → Bool)
    (q : α → Bool) (h : ∀ a, p (f a) = q a) :
    (l.map f).filter p = (l.filter q).map f := by
  induction l with
  | nil => rfl
  | cons a t ih =>
    by_cases ha : q a
    · simp [List.filter_cons, h a, ha, ih]
    · simp [List.filter_cons, h a, ha, ih]

theorem flatMap_filter_comm {α β : Type} (l : List α) (g : α → List β)
    (q : α → Bool) (p : β → Bool) (h : ∀ a, ∀ b ∈ g a, p b = q a) :
    (l.filter q).flatMap g = (l.flatMap g).filter p := by
  induction l with
  | nil => rfl
  | cons a t ih =>
    rw [List.flatMap_cons, List.filter_append, List.filter_cons]
    by_cases ha : q a
    · have hg : (g a).filter p = g a :=
        List.filter_eq_self.mpr fun b hb => by rw [h a b hb]; exact_mod_cast ha
      rw [if_pos (by exact_mod_cast ha), List.flatMap_cons, ih, hg]
    · have hg : (g a).filter p = [] :=
        List.filter_eq_nil_iff.mpr fun b hb => by simp [h a b hb, ha]
      rw [if_neg (by simpa using ha), ih, hg, List.nil_append]

theorem mergeLoc_filter (loc_df : List (ℕ × ℚ)) (cost_df : List CostRow)
    (cs : CostRow → ℕ) (q : CostRow → Bool) :
    mergeLoc loc_df (cost_df.filter q) cs
      = (mergeLoc loc_df cost_df cs).filter fun rv => q rv.1 := by
  unfold mergeLoc
  refine flatMap_filter_comm cost_df _ q (fun rv : CostRow × ℚ => q rv.1) ?_
  intro a b hb
  obtain ⟨lv, _, hlv⟩ := List.mem_map.mp hb
  rw [← hlv]

theorem mem_mergeLoc (loc_df : List (ℕ × ℚ)) (cost_df : List CostRow)
    (cs : CostRow → ℕ) (rv : CostRow × ℚ)
    (h : rv ∈ mergeLoc loc_df cost_df cs) : rv.1 ∈ cost_df := by
  induction cost_df with
  | nil => cases h
  | cons r t ih =>
    simp only [mergeLoc, List.flatMap_cons, List.mem_append] at h
    rcases h with h | h
    · obtain ⟨lv, _, hlv⟩ := List.mem_map.mp h
      rw [← hlv]
      exact List.mem_cons_self r t
    · exact List.mem_cons_of_mem r (ih h)

theorem sum_map_div {α : Type} (l : List α) (f : α → ℚ) (s : ℚ) :
    (l.map fun a => f a / s).sum = (l.map f).sum / s := by
  induction l with
  | nil => simp
  | cons a t ih => simp [ih, add_div]

/-- C2: with a given `max_cost`, `weighted_catchment` excludes every cost
edge whose cost equals `max_cost` exactly (dropping those edges from the
input changes nothing), and an input in which every edge sits exactly at
`max_cost` aggregates to the empty series with zero matched rows. -/
theorem claim2_threshold_exclusive (loc_df : List (ℕ × ℚ)) (cost_df : List CostRow)
    (max_cost : ℚ) (cs cd : CostRow → ℕ) (lv : Bool) (wf : Option (ℚ → ℚ))
    (ts : Bool) :
    weighted_catchment loc_df cost_df (some max_cost) cs cd lv wf ts
      = weighted_catchment loc_df (cost_df.filter fun r => r.cost ≠ max_cost)
          (some max_cost) cs cd lv wf ts
    ∧ ((∀ r ∈ cost_df, r.cost = max_cost) →
        weighted_catchment loc_df cost_df (some max_cost) cs cd true wf ts
          = .ok []) := by
  have hcut : wcCut (some max_cost)
      (mergeLoc loc_df (cost_df.filter fun r => r.cost ≠ max_cost) cs)
      = wcCut (some max_cost) (mergeLoc loc_df cost_df cs) := by
    show List.filter _ _ = List.filter _ _
    rw [mergeLoc_filter, List.filter_filter]
    refine List.filter_congr fun rv _ => ?_
    by_cases h : rv.1.cost < max_cost
    · simp [h, ne_of_lt h]
    · simp [h]
  constructor
  · unfold weighted_catchment weighted_catchment_core
    rw [hcut]
  · intro hall
    have hnil : wcCut (some max_cost) (mergeLoc loc_df cost_df cs) = [] := by
      show List.filter _ _ = []
      rw [List.filter_eq_nil_iff]
      intro rv hrv
      have := hall rv.1 (mem_mergeLoc loc_df cost_df cs rv hrv)
      simp [this]
    unfold weighted_catchment weighted_catchment_core
    rw [hnil]
    cases wf with
    | none => rfl
    | some w => cases ts <;> rfl

/-- Witness for C2 at a concrete boundary input: a single edge whose
cost equals the cutoff yields the empty aggregate. -/
theorem claim2_witness :
    (∀ r ∈ [exRowAtCut], r.cost = 5)
    ∧ weighted_catchment exLoc [exRowAtCut] (some 5) (fun r => r.origin)
        (fun r => r.dest) true none false = .ok [] :=
  ⟨by intro r hr; simp only [List.mem_singleton] at hr; subst hr; rfl,
   (claim2_threshold_exclusive exLoc [exRowAtCut] 5 (fun r => r.origin)
      (fun r => r.dest) true none false).2
    (by intro r hr; simp only [List.mem_singleton] at hr; subst hr; rfl)⟩

/-- C10: on the inputs both variants accept — a finite `max_cost`, a
named magnitude column, a column location key and no three-stage
weighting — the `fca.py` implementation (cutoff before weighting) and
the `fca/fca1.py` implementation (weighting before cutoff) return the
same series. -/
theorem claim10_variants_agree (loc_df : List (ℕ × ℚ)) (cost_df : List CostRow)
    (max_cost : ℚ) (cs cd : CostRow → ℕ) (wf : Option (ℚ → ℚ)) :
    weighted_catchment loc_df cost_df (some max_cost) cs cd true wf false
      = .ok (weighted_catchment_fca1 loc_df cost_df max_cost cs cd true wf false) := by
  unfold weighted_catchment weighted_catchment_core weighted_catchment_fca1
  cases wf with
  | none => rfl
  | some w =>
    simp only [if_true, Except.ok.injEq]
    refine congrArg (wcGroup cd) ?_
    show ((mergeLoc loc_df cost_df cs).filter
          fun rv => decide (rv.1.cost < max_cost)).map
          (fun rv => (rv.1, rv.2 * w rv.1.cost))
      = ((mergeLoc loc_df cost_df cs).map
          (fun rv => (rv.1, rv.2 * w rv.1.cost))).filter
          fun rv => decide (rv.1.cost < max_cost)
    exact (filter_map_comm (mergeLoc loc_df cost_df cs)
      (fun rv => (rv.1, rv.2 * w rv.1.cost))
      (fun rv => decide (rv.1.cost < max_cost))
      (fun rv => decide (rv.1.cost < max_cost)) fun a => rfl).symm

/-- C8: calling the `fca.py` `weighted_catchment` without naming a
magnitude column always raises (`KeyError` on the column `None`) instead
of counting rows; the count behaviour exists only in the
`fca/fca1.py` variant, which on the same input returns the surviving row
count per grouping key. -/
theorem claim8_count_path :
    (∀ (loc_df : List (ℕ × ℚ)) (cost_df : List CostRow) (mc : Option ℚ)
      (cs cd : CostRow → ℕ) (wf : Option (ℚ → ℚ)) (ts : Bool),
      weighted_catchment loc_df cost_df mc cs cd false wf ts
        = .error "KeyError: None")
    ∧ weighted_catchment_fca1 exLoc [exRow12] 10 (fun r => r.origin)
        (fun r => r.dest) false none false = [(2, 1)] := by
  constructor
  · intro loc_df cost_df mc cs cd wf ts
    rfl
  · norm_num [weighted_catchment_fca1, wcApplyWeight, wcGroup, mergeLoc, groupSum, keyList, insertKey,
      sumForKey, exLoc, exRow12]

/-- C9: `three_stage_fca` does not leave the caller's cost table
unchanged — for every input the caller's frame comes back with the
temporary `W3` column added (the in-place `cost_df["W3"] = ...` happens
on the caller's object, while the final `drop` acts on a merged local
copy), exhibited concretely on a one-row cost table. -/
theorem claim9_input_mutated :
    (∀ (demand_df supply_df : List (ℕ × ℚ)) (cost_df : List CostRow)
      (mc : Option ℚ) (wf : ℚ → ℚ),
      (three_stage_fca demand_df supply_df cost_df mc wf).2 = add_W3 cost_df wf)
    ∧ (three_stage_fca exDemandN exSupplyN [exRow12] (some 10) (fun _ => 1)).2
        = [{ origin := 1, dest := 2, cost := 1, W3 := 1 }]
    ∧ [{ origin := 1, dest := 2, cost := 1, W3 := 1 }] ≠ [exRow12] := by
  refine ⟨fun _ _ _ _ _ => rfl, ?_, ?_⟩
  · norm_num [three_stage_fca, add_W3, exRow12]
  · simp only [ne_eq, List.cons.injEq, and_true, not_and, exRow12]
    intro h
    have := congrArg CostRow.W3 h
    norm_num at this

/-- C6: the `normalize` parameter of the engine's `fca_ratio` is
accepted and never read — the result is identical under
`normalize=True` and `normalize=False` — so at a concrete input whose
unnormalized ratio is 2 everywhere the `normalize=True` result has
demand-weighted mean 2, not 1.  (The scaling the spec describes exists
only in `fca/fca2.py::two_stage_fca` and `helpers.normalized_access`,
not in the `fca.py` engine functions.) -/
theorem claim6_normalize_ignored :
    (∀ (d s : List (ℕ × ℚ)) (dc sc : List CostRow) (mc : Option ℚ)
      (wf : Option (ℚ → ℚ)),
      fca_ratio_series d s dc sc mc wf true
        = fca_ratio_series d s dc sc mc wf false)
    ∧ fca_ratio_series exDemandN exSupplyN exCostN exCostN (some 10) none true
        = [(1, .finV 2)]
    ∧ demand_weighted_mean
        ((fca_ratio_series exDemandN exSupplyN exCostN exCostN (some 10) none
          true).map fun p => (p.1, fvalQ p.2)) exDemandN = 2
    ∧ (2 : ℚ) ≠ 1 := by
  have h2 : fca_ratio_series exDemandN exSupplyN exCostN exCostN (some 10) none
      true = [(1, .finV 2)] := by
    norm_num [fca_ratio_series, weighted_catchment_core, wcCut, wcApplyWeight,
      wcGroup, mergeLoc, groupSum, keyList, insertKey, sumForKey, lookupL, fdiv,
      exDemandN, exSupplyN, exCostN]
  refine ⟨fun _ _ _ _ _ _ => rfl, h2, ?_, by norm_num⟩
  rw [h2]
  norm_num [demand_weighted_mean, fvalQ, lookupL, exDemandN]

/-- Counterexample to C3 as stated: location 1 has an aggregated demand
catchment of exactly zero (its only neighbor inside the cutoff has zero
demand) but a positive supply catchment of 5, and the returned ratio at
location 1 is `+inf` — not `NaN` as the claim requires. -/
theorem claim3_counterexample :
    weighted_catchment_core exDemandZ exDemandCostZ (some 10)
      (fun r => r.dest) (fun r => r.origin) none false = [(1, 0)]
    ∧ fca_ratio_series exDemandZ exSupplyZ exDemandCostZ exSupplyCostZ
        (some 10) none false = [(1, .infV)]
    ∧ FDiv.infV ≠ FDiv.nanV := by
  refine ⟨?_, ?_, by intro h; cases h⟩
  · norm_num [weighted_catchment_core, wcCut, wcApplyWeight, wcGroup, mergeLoc,
      groupSum, keyList, insertKey, sumForKey, exDemandZ, exDemandCostZ]
  · norm_num [fca_ratio_series, weighted_catchment_core, wcCut, wcApplyWeight,
      wcGroup, mergeLoc, groupSum, keyList, insertKey, sumForKey, lookupL, fdiv,
      exDemandZ, exSupplyZ, exDemandCostZ, exSupplyCostZ]

theorem lookupL_map_pair {α β : Type} (l : List (ℕ × α)) (g : ℕ → α → β) (k : ℕ) :
    lookupL (l.map fun p => (p.1, g p.1 p.2)) k = (lookupL l k).map (g k) := by
  induction l with
  | nil => rfl
  | cons p t ih =>
    by_cases h : p.1 = k
    · subst h
      simp [lookupL]
    · simp [lookupL, h, ih]

/-- C3 (amended): a demand location that appears in the aggregated
demand series with value zero receives the IEEE quotient of its
zero-filled supply aggregate by zero — `NaN` when that aggregate is
itself zero, `+inf` when it is positive — never `0` and never an
exception; and with `max_cost = 0` and nonnegative edge costs no
location survives the strict cutoff, so the returned series is empty
rather than `NaN`-valued. -/
theorem claim3_zero_demand_quotient :
    (∀ (d s : List (ℕ × ℚ)) (dc sc : List CostRow) (mc : Option ℚ)
      (wf : Option (ℚ → ℚ)) (nrm : Bool) (k : ℕ),
      lookupL (weighted_catchment_core d dc mc (fun r => r.dest)
        (fun r => r.origin) wf false) k = some 0 →
      lookupL (fca_ratio_series d s dc sc mc wf nrm) k
        = some (fdiv ((lookupL (weighted_catchment_core s sc mc
            (fun r => r.dest) (fun r => r.origin) wf false) k).getD 0) 0))
    ∧ (∀ (d s : List (ℕ × ℚ)) (dc sc : List CostRow) (wf : Option (ℚ → ℚ))
        (nrm : Bool), (∀ r ∈ dc, 0 ≤ r.cost) →
        fca_ratio_series d s dc sc (some 0) wf nrm = []) := by
  constructor
  · intro d s dc sc mc wf nrm k hk
    unfold fca_ratio_series
    rw [lookupL_map_pair _ (fun a b => fdiv ((lookupL (weighted_catchment_core s
      sc mc (fun r => r.dest) (fun r => r.origin) wf false) a).getD 0) b), hk]
    rfl
  · intro d s dc sc wf nrm hc
    have hnil : wcCut (some 0) (mergeLoc d dc fun r => r.dest) = [] := by
      show List.filter _ _ = []
      rw [List.filter_eq_nil_iff]
      intro rv hrv
      have := hc rv.1 (mem_mergeLoc d dc _ rv hrv)
      simp only [decide_eq_true_eq]
      exact not_lt.mpr this
    unfold fca_ratio_series weighted_catchment_core
    rw [hnil]
    cases wf with
    | none => rfl
    | some w => cases nrm <;> rfl

theorem filter_nonempty_of_sum_ne_zero {α : Type} (l : List α) (f : α → ℚ)
    (h : (l.map f).sum ≠ 0) : ∃ a, a ∈ l := by
  cases l with
  | nil => simp at h
  | cons a t => exact ⟨a, List.mem_cons_self a t⟩

/-- C5: in `three_stage_fca`, for every origin whose rows carry a
nonzero total raw weight `Σ weight_fn(cost)`, the preference-weight
column `G` sums to exactly 1 over that origin's cost rows. -/
theorem claim5_G_row_stochastic (cost_df : List CostRow) (wf : ℚ → ℚ) (o : ℕ)
    (h : ((cost_df.filter fun r => r.origin = o).map fun r => wf r.cost).sum ≠ 0) :
    (((add_G cost_df wf).filter fun r => r.origin = o).map fun r => r.G).sum
      = 1 := by
  have hfilter : ((add_G cost_df wf).filter fun r => r.origin = o)
      = (cost_df.filter fun r => r.origin = o).map fun r =>
          let s := (lookupL (w3sum_frame cost_df wf) r.origin).getD 0
          { r with W3 := wf r.cost, W3sum := s, G := wf r.cost / s } := by
    unfold add_G add_W3
    rw [List.map_map]
    exact filter_map_comm cost_df _ _ _ fun r => rfl
  have hpairs : ((add_W3 cost_df wf).map fun r => (r.origin, r.W3)).filter
      (fun p => p.1 = o)
      = (cost_df.filter fun r => r.origin = o).map fun r => (r.origin, wf r.cost) := by
    unfold add_W3
    rw [List.map_map]
    exact filter_map_comm cost_df _ _ _ fun r => rfl
  have hS : (lookupL (w3sum_frame cost_df wf) o).getD 0
      = ((cost_df.filter fun r => r.origin = o).map fun r => wf r.cost).sum := by
    obtain ⟨r0, hr0⟩ := filter_nonempty_of_sum_ne_zero _ _ h
    rw [List.mem_filter] at hr0
    have hmem : ∃ p ∈ (add_W3 cost_df wf).map fun r => (r.origin, r.W3),
        p.1 = o := by
      refine ⟨(r0.origin, wf r0.cost), ?_, by
        simpa using hr0.2⟩
      refine List.mem_map.mpr ⟨{ r0 with W3 := wf r0.cost }, ?_, rfl⟩
      exact List.mem_map.mpr ⟨r0, hr0.1, rfl⟩
    unfold w3sum_frame
    rw [lookupL_groupSum _ o hmem, Option.getD_some]
    unfold sumForKey
    rw [hpairs, List.map_map]
    rfl
  rw [hfilter, List.map_map]
  have hconst : ((cost_df.filter fun r => r.origin = o).map
      ((fun r : CostRow => r.G) ∘ fun r =>
        let s := (lookupL (w3sum_frame cost_df wf) r.origin).getD 0
        { r with W3 := wf r.cost, W3sum := s, G := wf r.cost / s }))
      = (cost_df.filter fun r => r.origin = o).map fun r =>
          wf r.cost / ((cost_df.filter fun r => r.origin = o).map
            fun r => wf r.cost).sum := by
    refine List.map_congr_left ?_
    intro r hr
    rw [List.mem_filter] at hr
    have ho : r.origin = o := by simpa using hr.2
    simp only [Function.comp]
    rw [ho, hS]
  rw [hconst, sum_map_div]
  exact div_self h

/-- Witness for C5 on a one-row cost table with constant weight 2: the
total raw weight at origin 1 is 2 ≠ 0 and the G column sums to 1. -/
theorem claim5_witness :
    (([exRow12].filter fun r => r.origin = 1).map fun r =>
      (fun _ => (2 : ℚ)) r.cost).sum ≠ 0
    ∧ (((add_G [exRow12] fun _ => (2 : ℚ)).filter fun r => r.origin = 1).map
        fun r => r.G).sum = 1 :=
  ⟨by norm_num [exRow12],
   claim5_G_row_stochastic [exRow12] (fun _ => (2 : ℚ)) 1 (by norm_num [exRow12])⟩

theorem insertPair_perm (p : ℚ × ℚ) (l : List (ℚ × ℚ)) :
    (insertPair p l).Perm (p :: l) := by
  induction l with
  | nil => exact List.Perm.refl _
  | cons q t ih =>
    simp only [insertPair]
    split_ifs with h1
    · exact List.Perm.refl _
    · exact (ih.cons q).trans (List.Perm.swap p q t)

theorem sortPairs_perm (l : List (ℚ × ℚ)) : (sortPairs l).Perm l := by
  induction l with
  | nil => exact List.Perm.refl _
  | cons p t ih => exact (insertPair_perm p (sortPairs t)).trans (ih.cons p)

theorem pairwise_insertPair (p : ℚ × ℚ) (l : List (ℚ × ℚ))
    (hl : l.Pairwise fun a b => a.1 ≤ b.1) :
    (insertPair p l).Pairwise fun a b => a.1 ≤ b.1 := by
  induction l with
  | nil => simp [insertPair]
  | cons q t ih =>
    rw [List.pairwise_cons] at hl
    simp only [insertPair]
    split_ifs with h1
    · refine List.pairwise_cons.mpr ⟨?_, List.pairwise_cons.mpr ⟨hl.1, hl.2⟩⟩
      intro b hb
      rcases List.mem_cons.mp hb with rfl | hb2
      · exact h1
      · exact le_trans h1 (hl.1 b hb2)
    · refine List.pairwise_cons.mpr ⟨?_, ih hl.2⟩
      intro b hb
      rcases List.mem_cons.mp ((insertPair_perm p t).mem_iff.mp hb) with rfl | hb2
      · exact le_of_not_le h1
      · exact hl.1 b hb2

theorem sortPairs_pairwise (l : List (ℚ × ℚ)) :
    (sortPairs l).Pairwise fun a b => a.1 ≤ b.1 := by
  induction l with
  | nil => exact List.Pairwise.nil
  | cons p t ih => exact pairwise_insertPair p (sortPairs t) ih

theorem stepLookup_first_min (x : ℚ) (kv : ℚ × ℚ) :
    ∀ l : List (ℚ × ℚ), (l.Pairwise fun a b => a.1 ≤ b.1) →
    (l.map Prod.fst).Nodup → kv ∈ l → x ≤ kv.1 →
    (∀ kv2 ∈ l, x ≤ kv2.1 → kv.1 ≤ kv2.1) → stepLookup l x = kv.2 := by
  intro l
  induction l with
  | nil =>
    intro _ _ hm
    cases hm
  | cons q t ih =>
    intro hp hnd hm hx hmin
    rw [List.pairwise_cons] at hp
    rw [List.map_cons, List.nodup_cons] at hnd
    simp only [stepLookup]
    by_cases hq : x ≤ q.1
    · rw [if_pos hq]
      rcases List.mem_cons.mp hm with rfl | hmt
      · rfl
      · have h1 : q.1 ≤ kv.1 := hp.1 kv hmt
        have h2 : kv.1 ≤ q.1 := hmin q (List.mem_cons_self q t) hq
        have hkey : kv.1 = q.1 := le_antisymm h2 h1
        exact absurd (hkey ▸ List.mem_map_of_mem Prod.fst hmt) hnd.1
    · rw [if_neg hq]
      rcases List.mem_cons.mp hm with rfl | hmt
      · exact absurd hx hq
      · exact ih hp.2 hnd.2 hmt hx
          fun kv2 h2 hx2 => hmin kv2 (List.mem_cons_of_mem q h2) hx2

theorem stepLookup_beyond (x : ℚ) :
    ∀ l : List (ℚ × ℚ), (∀ kv ∈ l, kv.1 < x) → stepLookup l x = 0 := by
  intro l
  induction l with
  | nil => intro _; rfl
  | cons q t ih =>
    intro hall
    simp only [stepLookup]
    rw [if_neg (not_le.mpr (hall q (List.mem_cons_self q t)))]
    exact ih fun kv h => hall kv (List.mem_cons_of_mem q h)

/-- C7: on a dictionary with distinct keys and nonnegative weights,
`step_fn` succeeds and the returned function maps an input covered by
some cutoff to the weight of the smallest cutoff at or above it, and an
input beyond every cutoff to 0; a dictionary containing a negative
weight, or a non-dict argument, raises at construction time, and so does
`gaussian` at `sigma = 0`. -/
theorem claim7_step_fn_contract :
    (∀ entries : List (ℚ × ℚ), (entries.map Prod.fst).Nodup →
      (∀ kv ∈ entries, 0 ≤ kv.2) →
      step_fn (.dict entries) = .ok (stepEval entries)
      ∧ (∀ x kv, kv ∈ entries → x ≤ kv.1 →
          (∀ kv2 ∈ entries, x ≤ kv2.1 → kv.1 ≤ kv2.1) →
          stepEval entries x = kv.2)
      ∧ ∀ x, (∀ kv ∈ entries, kv.1 < x) → stepEval entries x = 0)
    ∧ (∀ (entries : List (ℚ × ℚ)) (kv : ℚ × ℚ), kv ∈ entries → kv.2 < 0 →
        step_fn (.dict entries) = .error "All weights must be positive.")
    ∧ step_fn .notDict = .error "step_dict must be of type dict."
    ∧ ∀ e : ℚ → ℚ, gaussian e 0 = .error "Sigma must be non-zero." := by
  refine ⟨?_, ?_, rfl, fun e => by simp [gaussian]⟩
  · intro entries hnd hpos
    have hany : entries.any (fun kv => kv.2 < 0) = false := by
      rw [List.any_eq_false]
      intro kv hkv
      simpa using not_lt.mpr (hpos kv hkv)
    refine ⟨by simp [step_fn, hany], ?_, ?_⟩
    · intro x kv hm hx hmin
      refine stepLookup_first_min x kv (sortPairs entries)
        (sortPairs_pairwise entries) ?_ ((sortPairs_perm entries).mem_iff.mpr hm)
        hx fun kv2 h2 hx2 => hmin kv2 ((sortPairs_perm entries).mem_iff.mp h2) hx2
      exact (((sortPairs_perm entries).map Prod.fst).nodup_iff).mpr hnd
    · intro x hall
      exact stepLookup_beyond x (sortPairs entries)
        fun kv h => hall kv ((sortPairs_perm entries).mem_iff.mp h)
  · intro entries kv hm hneg
    have hany : entries.any (fun kv => kv.2 < 0) = true :=
      List.any_eq_true.mpr ⟨kv, hm, by simpa using hneg⟩
    simp [step_fn, hany]

/-- Witness for C7 on the dictionary `{10: 1, 20: 1/2}`: the input 15 is
mapped to the weight of cutoff 20 and the input 25, beyond every cutoff,
to 0. -/
theorem claim7_witness :
    (exStepDict.map Prod.fst).Nodup ∧ (∀ kv ∈ exStepDict, 0 ≤ kv.2)
    ∧ stepEval exStepDict 15 = 1 / 2 ∧ stepEval exStepDict 25 = 0 := by
  have hnd : (exStepDict.map Prod.fst).Nodup := by norm_num [exStepDict]
  have hpos : ∀ kv ∈ exStepDict, 0 ≤ kv.2 := by
    intro kv h
    simp only [exStepDict, List.mem_cons, List.not_mem_nil, or_false] at h
    rcases h with rfl | rfl <;> norm_num
  refine ⟨hnd, hpos, ?_, ?_⟩
  · refine (claim7_step_fn_contract.1 exStepDict hnd hpos).2.1 15 (20, 1 / 2)
      (by simp [exStepDict]) (by norm_num) ?_
    intro kv2 h2 hx
    simp only [exStepDict, List.mem_cons, List.not_mem_nil, or_false] at h2
    rcases h2 with rfl | rfl
    · exact absurd hx (by norm_num)
    · norm_num
  · refine (claim7_step_fn_contract.1 exStepDict hnd hpos).2.2 25 ?_
    intro kv h
    simp only [exStepDict, List.mem_cons, List.not_mem_nil, or_false] at h
    rcases h with rfl | rfl <;> norm_num

/-- Witness for C3 (amended) at the concrete zero-demand input: the
value at location 1 is `+inf`, and with a zero cutoff the series is
empty. -/
theorem claim3_witness :
    lookupL (fca_ratio_series exDemandZ exSupplyZ exDemandCostZ exSupplyCostZ
      (some 10) none false) 1 = some FDiv.infV
    ∧ fca_ratio_series exDemandZ exSupplyZ exDemandCostZ exSupplyCostZ
        (some 0) none false = [] := by
  constructor
  · have h := claim3_zero_demand_quotient.1 exDemandZ exSupplyZ exDemandCostZ
      exSupplyCostZ (some 10) none false 1
      (by norm_num [weighted_catchment_core, wcCut, wcApplyWeight, wcGroup,
        mergeLoc, groupSum, keyList, insertKey, sumForKey, lookupL, exDemandZ,
        exDemandCostZ])
    rw [h]
    norm_num [weighted_catchment_core, wcCut, wcApplyWeight, wcGroup, mergeLoc,
      groupSum, keyList, insertKey, sumForKey, lookupL, fdiv, exSupplyZ,
      exSupplyCostZ]
  · exact claim3_zero_demand_quotient.2 exDemandZ exSupplyZ exDemandCostZ
      exSupplyCostZ none false
      (by
        intro r hr
        simp only [exDemandCostZ, List.mem_singleton] at hr
        subst hr
        norm_num)

theorem argminFin_foldl_le {m : ℕ} (f : Fin m → ℚ) :
    ∀ (l : List (Fin m)) (b : Fin m),
      f (l.foldl (fun best j => if f j < f best then j else best) b) ≤ f b
      ∧ ∀ j ∈ l, f (l.foldl (fun best j => if f j < f best then j else best) b) ≤ f j := by
  intro l
  induction l with
  | nil => exact fun b => ⟨le_refl _, fun j hj => absurd hj (List.not_mem_nil j)⟩
  | cons a t ih =>
    intro b
    rw [List.foldl_cons]
    by_cases ha : f a < f b
    · rw [if_pos ha]
      refine ⟨le_trans (ih a).1 (le_of_lt ha), ?_⟩
      intro j hj
      rcases List.mem_cons.mp hj with rfl | hj2
      · exact (ih _).1
      · exact (ih _).2 j hj2
    · rw [if_neg ha]
      refine ⟨(ih b).1, ?_⟩
      intro j hj
      rcases List.mem_cons.mp hj with rfl | hj2
      · exact le_trans (ih b).1 (le_of_not_lt ha)
      · exact (ih b).2 j hj2

theorem argminFin_le {m : ℕ} (hm : 0 < m) (f : Fin m → ℚ) (j : Fin m) :
    f (argminFin hm f) ≤ f j :=
  (argminFin_foldl_le f (List.finRange m) ⟨0, hm⟩).2 j (List.mem_finRange j)

theorem rowSum_raam_init {n m : ℕ} (hm : 0 < m) (p : RaamInput n m) (i : Fin n) :
    rowSum (raam_init hm p) i = p.demand i := by
  unfold rowSum raam_init
  rw [Finset.sum_ite_eq' Finset.univ (argminFin hm (p.travel i)) fun _ => p.demand i]
  rw [if_pos (Finset.mem_univ _)]

theorem rowSum_raam_cycle {n m : ℕ} (hm : 0 < m) (p : RaamInput n m) (cyc : ℕ)
    (A : Fin n → Fin m → ℚ) (i : Fin n) :
    rowSum (raam_cycle hm p cyc A) i = rowSum A i := by
  unfold rowSum raam_cycle
  rw [Finset.sum_sub_distrib, Finset.sum_add_distrib]
  rw [Finset.sum_ite_eq' Finset.univ (raam_minloc hm p A i)
    fun _ => ((raam_delta hm p cyc A i : ℤ) : ℚ)]
  rw [Finset.sum_ite_eq' Finset.univ (raam_maxloc hm p A i)
    fun _ => ((raam_delta hm p cyc A i : ℤ) : ℚ)]
  rw [if_pos (Finset.mem_univ _), if_pos (Finset.mem_univ _)]
  ring

/-- C1: mass conservation in the RAAM solver — after every iteration
cycle the row sum of the assignment matrix over every origin equals that
origin's demand exactly, for every demand vector, supply vector, travel
matrix, step schedule and cycle count.  Demand is only moved between
destinations within a row, never created or destroyed. -/
theorem claim1_raam_mass_conservation {n m : ℕ} (p : RaamInput n m)
    (hm : 0 < m) (k : ℕ) (i : Fin n) :
    rowSum (raam_iterate hm p k) i = p.demand i := by
  induction k with
  | zero => exact rowSum_raam_init hm p i
  | succ k ih => rw [raam_iterate, rowSum_raam_cycle]; exact ih

/-- Witness for C1 on a concrete one-origin, two-destination input after
three cycles. -/
theorem claim1_witness :
    0 < 2 ∧ rowSum (raam_iterate (by norm_num) exRaam 3) 0 = exRaam.demand 0 :=
  ⟨by norm_num, claim1_raam_mass_conservation exRaam (by norm_num) 3 0⟩

theorem truncQ_nonneg (q : ℚ) (h : 0 ≤ q) : 0 ≤ truncQ q := by
  unfold truncQ
  rw [if_pos h]
  exact Int.floor_nonneg.mpr h

theorem truncQ_cast_le (q : ℚ) (h : 0 ≤ q) : (truncQ q : ℚ) ≤ q := by
  unfold truncQ
  rw [if_pos h]
  exact Int.floor_le q

theorem roundHE_nonneg (q : ℚ) (h : 0 ≤ q) : 0 ≤ roundHE q := by
  have h0 : (0 : ℤ) ≤ ⌊q⌋ := Int.floor_nonneg.mpr h
  unfold roundHE
  split_ifs <;> omega

theorem roundHE_le_int (q : ℚ) (z : ℤ) (h : q ≤ (z : ℚ)) : roundHE q ≤ z := by
  have hf : ⌊q⌋ ≤ z := by
    have h2 := Int.floor_le_floor h
    rwa [Int.floor_intCast] at h2
  have hstrict : ¬(q - ⌊q⌋ < 1 / 2) → ⌊q⌋ < z := by
    intro h1
    rcases lt_or_eq_of_le hf with hlt | heq
    · exact hlt
    · exfalso
      have hq : (⌊q⌋ : ℚ) + 1 / 2 ≤ q := by
        have h3 := not_lt.mp h1
        linarith
      rw [heq] at hq
      have := le_trans hq h
      linarith
  unfold roundHE
  split_ifs with h1 h2 h3
  · exact hf
  · have := hstrict h1
    omega
  · exact hf
  · have := hstrict h1
    omega

theorem raam_transfer_key_ineq (a b dOm dom slmin slmax trlmin trlmax : ℚ)
    (h1 : 0 < slmin) (h2 : 0 < slmax)
    (hcost : (a + dOm) / slmin + trlmin ≤ (b + dom) / slmax + trlmax) :
    a ≤ slmin * slmax / (slmin + slmax) *
      ((trlmax - trlmin) + ((a + b) + dom) / slmax - dOm / slmin) := by
  have hs : 0 < slmin + slmax := by linarith
  rw [div_mul_eq_mul_div, le_div_iff₀ hs]
  have e1 : slmin * slmax *
      ((trlmax - trlmin) + ((a + b) + dom) / slmax - dOm / slmin)
      = slmin * slmax * (trlmax - trlmin) + slmin * ((a + b) + dom)
        - slmax * dOm := by
    field_simp
    ring
  rw [e1]
  have h4 := mul_le_mul_of_nonneg_left hcost (le_of_lt (mul_pos h1 h2))
  have e2 : slmin * slmax * ((a + dOm) / slmin + trlmin)
      = slmax * (a + dOm) + slmin * slmax * trlmin := by
    field_simp
    ring
  have e3 : slmin * slmax * ((b + dom) / slmax + trlmax)
      = slmin * (b + dom) + slmin * slmax * trlmax := by
    field_simp
    ring
  rw [e2, e3] at h4
  nlinarith [h4]

theorem raam_delta_clamped_spec {n m : ℕ} (hm : 0 < m) (p : RaamInput n m)
    (A : Fin n → Fin m → ℚ) (hs : ∀ j, 0 < p.supply j)
    (hA : ∀ i j, 0 ≤ A i j) (i : Fin n) :
    0 ≤ raam_delta_clamped hm p A i
    ∧ raam_delta_clamped hm p A i ≤ A i (raam_maxloc hm p A i)
    ∧ (raam_maxloc hm p A i = raam_minloc hm p A i →
        raam_delta_clamped hm p A i = 0) := by
  unfold raam_delta_clamped
  by_cases heq : raam_maxloc hm p A i = raam_minloc hm p A i
  · rw [if_pos heq]
    exact ⟨le_refl 0, hA i _, fun _ => rfl⟩
  · rw [if_neg heq]
    have hcost : raam_total_cost p A i (raam_minloc hm p A i)
        ≤ raam_total_cost p A i (raam_maxloc hm p A i) :=
      argminFin_le hm (raam_total_cost p A i) (raam_maxloc hm p A i)
    have hcost2 : (A i (raam_minloc hm p A i)
          + (colSum A (raam_minloc hm p A i) - A i (raam_minloc hm p A i)))
            / p.supply (raam_minloc hm p A i)
          + p.travel i (raam_minloc hm p A i)
        ≤ (A i (raam_maxloc hm p A i)
            + (colSum A (raam_maxloc hm p A i) - A i (raam_maxloc hm p A i)))
              / p.supply (raam_maxloc hm p A i)
            + p.travel i (raam_maxloc hm p A i) := by
      have e1 : A i (raam_minloc hm p A i)
          + (colSum A (raam_minloc hm p A i) - A i (raam_minloc hm p A i))
          = colSum A (raam_minloc hm p A i) := by ring
      have e2 : A i (raam_maxloc hm p A i)
          + (colSum A (raam_maxloc hm p A i) - A i (raam_maxloc hm p A i))
          = colSum A (raam_maxloc hm p A i) := by ring
      rw [e1, e2]
      simpa [raam_total_cost] using hcost
    have hkey := raam_transfer_key_ineq
      (A i (raam_minloc hm p A i)) (A i (raam_maxloc hm p A i))
      (colSum A (raam_minloc hm p A i) - A i (raam_minloc hm p A i))
      (colSum A (raam_maxloc hm p A i) - A i (raam_maxloc hm p A i))
      (p.supply (raam_minloc hm p A i)) (p.supply (raam_maxloc hm p A i))
      (p.travel i (raam_minloc hm p A i)) (p.travel i (raam_maxloc hm p A i))
      (hs _) (hs _) hcost2
    refine ⟨le_min (by linarith [hkey]) (hA i _), min_le_right _ _,
      fun h => absurd h heq⟩

theorem raam_delta_spec {n m : ℕ} (hm : 0 < m) (p : RaamInput n m) (cyc : ℕ)
    (A : Fin n → Fin m → ℚ) (hs : ∀ j, 0 < p.supply j)
    (hd : ∀ i, 0 ≤ p.demand i) (hstep : ∀ c, 0 ≤ p.stepSched c)
    (hA : ∀ i j, 0 ≤ A i j) (i : Fin n) :
    0 ≤ raam_delta hm p cyc A i
    ∧ ((raam_delta hm p cyc A i : ℤ) : ℚ) ≤ A i (raam_maxloc hm p A i)
    ∧ (raam_maxloc hm p A i = raam_minloc hm p A i →
        raam_delta hm p cyc A i = 0) := by
  have hb : 0 ≤ raam_budget p cyc i := by
    unfold raam_budget
    split_ifs
    · exact mul_nonneg (hstep cyc) (hd i)
    · exact hstep cyc
  have hc := raam_delta_clamped_spec hm p A hs hA i
  have hmin0 : 0 ≤ min (raam_delta_clamped hm p A i) (raam_budget p cyc i) :=
    le_min hc.1 hb
  have hint0 : 0 ≤ raam_delta_int hm p cyc A i := truncQ_nonneg _ hmin0
  have hintle : ((raam_delta_int hm p cyc A i : ℤ) : ℚ)
      ≤ A i (raam_maxloc hm p A i) :=
    le_trans (truncQ_cast_le _ hmin0) (le_trans (min_le_left _ _) hc.2.1)
  have hint_eq0 : raam_maxloc hm p A i = raam_minloc hm p A i →
      raam_delta_int hm p cyc A i = 0 := by
    intro h
    unfold raam_delta_int
    rw [hc.2.2 h, min_eq_left hb]
    simp [truncQ]
  unfold raam_delta
  split_ifs with hlim
  · have hscale : 1 ≤ raam_scale hm p cyc A (raam_minloc hm p A i) :=
      le_max_right _ _
    have hcast0 : (0 : ℚ) ≤ ((raam_delta_int hm p cyc A i : ℤ) : ℚ) := by
      exact_mod_cast hint0
    have hx0 : 0 ≤ ((raam_delta_int hm p cyc A i : ℤ) : ℚ)
        / raam_scale hm p cyc A (raam_minloc hm p A i) :=
      div_nonneg hcast0 (le_trans zero_le_one hscale)
    have hxle : ((raam_delta_int hm p cyc A i : ℤ) : ℚ)
        / raam_scale hm p cyc A (raam_minloc hm p A i)
        ≤ ((raam_delta_int hm p cyc A i : ℤ) : ℚ) :=
      div_le_self hcast0 hscale
    refine ⟨roundHE_nonneg _ hx0, ?_, ?_⟩
    · have h1 := roundHE_le_int _ (raam_delta_int hm p cyc A i) hxle
      have h2 : ((roundHE (((raam_delta_int hm p cyc A i : ℤ) : ℚ)
          / raam_scale hm p cyc A (raam_minloc hm p A i)) : ℤ) : ℚ)
          ≤ ((raam_delta_int hm p cyc A i : ℤ) : ℚ) := by
        exact_mod_cast h1
      exact le_trans h2 hintle
    · intro h
      rw [hint_eq0 h]
      norm_num [roundHE]
  · exact ⟨hint0, hintle, hint_eq0⟩

theorem raam_iterate_nonneg {n m : ℕ} (hm : 0 < m) (p : RaamInput n m)
    (hs : ∀ j, 0 < p.supply j) (hd : ∀ i, 0 ≤ p.demand i)
    (hstep : ∀ c, 0 ≤ p.stepSched c) :
    ∀ (k : ℕ) (i : Fin n) (j : Fin m), 0 ≤ raam_iterate hm p k i j := by
  intro k
  induction k with
  | zero =>
    intro i j
    unfold raam_iterate raam_init
    split_ifs
    · exact hd i
    · exact le_refl 0
  | succ k ih =>
    intro i j
    have hδ := raam_delta_spec hm p k (raam_iterate hm p k) hs hd hstep ih i
    show 0 ≤ raam_cycle hm p k (raam_iterate hm p k) i j
    unfold raam_cycle
    by_cases h1 : j = raam_minloc hm p (raam_iterate hm p k) i
    · by_cases h2 : j = raam_maxloc hm p (raam_iterate hm p k) i
      · rw [if_pos h1, if_pos h2]
        have := ih i j
        linarith
      · rw [if_pos h1, if_neg h2, sub_zero]
        have hcast : (0 : ℚ) ≤ ((raam_delta hm p k (raam_iterate hm p k) i : ℤ) : ℚ) := by
          exact_mod_cast hδ.1
        exact add_nonneg (ih i j) hcast
    · by_cases h2 : j = raam_maxloc hm p (raam_iterate hm p k) i
      · rw [if_neg h1, if_pos h2, add_zero]
        rw [sub_nonneg, h2]
        exact hδ.2.1
      · rw [if_neg h1, if_neg h2, add_zero, sub_zero]
        exact ih i j

/-- C4: in every RAAM cycle and for every origin, the applied transfer
is nonnegative, does not exceed the demand currently assigned to that
origin's maximum-cost destination, and is zero whenever the minimum- and
maximum-cost destinations coincide; consequently no entry of the
assignment matrix ever becomes negative.  (No explicit lower clamp
exists in the source; nonnegativity follows because `min_locations`
minimizes the same total cost that `max_locations` maximizes.) -/
theorem claim4_raam_delta_clamps {n m : ℕ} (p : RaamInput n m) (hm : 0 < m)
    (hs : ∀ j, 0 < p.supply j) (hd : ∀ i, 0 ≤ p.demand i)
    (hstep : ∀ c, 0 ≤ p.stepSched c) (k : ℕ) :
    (∀ i j, 0 ≤ raam_iterate hm p k i j)
    ∧ ∀ i, 0 ≤ raam_delta hm p k (raam_iterate hm p k) i
      ∧ ((raam_delta hm p k (raam_iterate hm p k) i : ℤ) : ℚ)
          ≤ raam_iterate hm p k i (raam_maxloc hm p (raam_iterate hm p k) i)
      ∧ (raam_maxloc hm p (raam_iterate hm p k) i
          = raam_minloc hm p (raam_iterate hm p k) i →
          raam_delta hm p k (raam_iterate hm p k) i = 0) :=
  ⟨raam_iterate_nonneg hm p hs hd hstep k,
   fun i => raam_delta_spec hm p k (raam_iterate hm p k) hs hd hstep
     (raam_iterate_nonneg hm p hs hd hstep k) i⟩

/-- Witness for C4 on the concrete one-origin, two-destination input:
after two cycles the matrix is entrywise nonnegative and the next
transfer for origin 0 is nonnegative. -/
theorem claim4_witness :
    (0 < 2 ∧ (∀ j : Fin 2, 0 < exRaam.supply j)
      ∧ (∀ i : Fin 1, 0 ≤ exRaam.demand i) ∧ ∀ c : ℕ, 0 ≤ exRaam.stepSched c)
    ∧ (∀ i j, 0 ≤ raam_iterate (by norm_num) exRaam 2 i j)
    ∧ 0 ≤ raam_delta (by norm_num) exRaam 2 (raam_iterate (by norm_num) exRaam 2) 0 := by
  have hs : ∀ j : Fin 2, 0 < exRaam.supply j := by
    intro j
    fin_cases j <;> norm_num [exRaam]
  have hd : ∀ i : Fin 1, 0 ≤ exRaam.demand i := by
    intro i
    fin_cases i <;> norm_num [exRaam]
  have hstep : ∀ c : ℕ, 0 ≤ exRaam.stepSched c := fun c => by norm_num [exRaam]
  have h := claim4_raam_delta_clamps exRaam (by norm_num) hs hd hstep 2
  exact ⟨⟨by norm_num, hs, hd, hstep⟩, h.1, (h.2 0).1⟩
